import Mathlib

set_option maxHeartbeats 1000000

/-! Shallow embedding of the receipt-processor sources (src/receipt.rs and
src/accounting.rs). Rust strings are modelled as lists of characters, u32
values as natural numbers with arithmetic reduced modulo 2^32 at the points
where the Rust code can wrap, and fallible operations return Option/Except.
HashMap values are modelled as partial functions from keys, HashSet iteration
as an arbitrary list order. -/

/-- Rust str.split for a single-character separator: splits on every
occurrence of the separator, keeping empty pieces; the result is never
the empty list. -/
def splitOnChar (sep : Char) : List Char → List (List Char)
  | [] => [[]]
  | c :: rest =>
    match splitOnChar sep rest with
    | [] => [[]]
    | t :: ts => if c = sep then [] :: t :: ts else (c :: t) :: ts

/-- Rust str.trim: whitespace removed from both ends. -/
def trimList (l : List Char) : List Char :=
  ((l.dropWhile Char.isWhitespace).reverse.dropWhile Char.isWhitespace).reverse

/-- Rust str.len: the UTF-8 byte length of a string. -/
def utf8Len (l : List Char) : Nat := (l.map Char.utf8Size).sum

/-- Value of a string of decimal digits, most significant digit first. -/
def digitsVal (l : List Char) : Nat := l.foldl (fun a c => a * 10 + (c.toNat - 48)) 0

/-- Rust str.parse::<u32>: an optional leading plus sign, then one or more
ASCII digits, with a value below 2^32 (larger values are an overflow error). -/
def parseU32 (s : List Char) : Option Nat :=
  let t := if s.head? = some '+' then s.tail else s
  if t = [] then none
  else if t.all Char.isDigit then
    if digitsVal t < 2^32 then some (digitsVal t) else none
  else none

/-- ReceiptParseError from src/receipt.rs (PathBuf and message strings are
lists of characters). -/
inductive ReceiptParseError where
  | FileReadError (path : List Char) (underlying_error : List Char)
  | FileEmpty (path : List Char)
  | FormatError (path : List Char) (problem : List Char)
deriving DecidableEq

/-- Item from src/receipt.rs. -/
structure Item where
  name : List Char
  consumer : List Char
  single_price : Nat
  count : Nat
deriving DecidableEq

/-- Item::total_price: single_price * count as u32 (wraps modulo 2^32). -/
def Item.total_price (it : Item) : Nat :=
  (it.single_price * it.count) % 2^32

/-- Receipt from src/receipt.rs. -/
structure Receipt where
  file_path : List Char
  purchaser : List Char
  items : List Item
deriving DecidableEq

/-- Receipt::parse_price from src/receipt.rs: split on the dot, at most two
parts; an empty integer part counts as 0, otherwise it must parse as u32;
with no dot the integer part must be non-empty, with a dot the fractional
part must be 1 or 2 bytes and parse as u32, a single fractional digit being
scaled by ten; the result dollars * 100 + cents is u32 arithmetic. -/
def Receipt.parse_price (s : List Char) : Option Nat :=
  let price_parts := splitOnChar '.' s
  if 2 < price_parts.length then none
  else
    let p0 := price_parts.headD []
    match (if p0 = [] then some 0 else parseU32 p0 : Option Nat) with
    | none => none
    | some dollars =>
      let cents? : Option Nat :=
        if price_parts.length = 1 then
          if p0 = [] then none else some 0
        else
          let p1 := price_parts.getD 1 []
          if p1 = [] ∨ 2 < utf8Len p1 then none
          else
            match parseU32 p1 with
            | none => none
            | some v => some (if utf8Len p1 = 1 then v * 10 else v)
      match cents? with
      | none => none
      | some cents => some ((dollars * 100 + cents) % 2^32)

/-- Item::parse from src/receipt.rs: trim and split the line on spaces;
fewer than three tokens is a format error; token 0 is the price; the last
token is the consumer and may be at most one byte long; a token 1 of the
form x followed by a remainder makes the remainder parse as the count (with
at least four tokens required), otherwise the count is 1; the name joins the
tokens between the count marker (or token 0) and the consumer with spaces. -/
def Item.parse (fp : List Char) (line : List Char) : Except ReceiptParseError Item :=
  match splitOnChar ' ' (trimList line) with
  | t0 :: t1 :: t2 :: rest =>
    match Receipt.parse_price t0 with
    | none => .error (.FormatError fp ("Unable to parse item price ".data ++ t0))
    | some single_price =>
      if 1 < utf8Len ((t2 :: rest).getLastD []) then
        .error (.FormatError fp ("Unable to parse item consumer ".data ++ (t2 :: rest).getLastD []))
      else
        if t1.head? = some 'x' then
          match parseU32 t1.tail with
          | none => .error (.FormatError fp ("Unable to parse item count / multiplier ".data ++ t1))
          | some count =>
            match rest with
            | [] => .error (.FormatError fp ("Unable to parse item line ".data ++ line))
            | _ :: _ => .ok ⟨List.intercalate [' '] ((t2 :: rest).dropLast),
                (t2 :: rest).getLastD [], single_price, count⟩
        else .ok ⟨List.intercalate [' '] ((t1 :: t2 :: rest).dropLast),
            (t2 :: rest).getLastD [], single_price, 1⟩
  | _ => .error (.FormatError fp ("Unable to parse item line ".data ++ line))

/-- The problem text of the header format error in Receipt::parse. -/
def headerProblem : List Char :=
  "The first line did not match the required \"<person> pirka\" format!".data

/-- The item loop of Receipt::parse: each line after the first is either a
comment starting with a hash, which is skipped, or an item line; the first
item error aborts the whole parse. -/
def parseItems (fp : List Char) : List (List Char) → Except ReceiptParseError (List Item)
  | [] => .ok []
  | line :: rest =>
    if line.head? = some '#' then parseItems fp rest
    else
      match Item.parse fp line with
      | .error e => .error e
      | .ok item =>
        match parseItems fp rest with
        | .error e => .error e
        | .ok items => .ok (item :: items)

/-- Receipt::parse from src/receipt.rs, with file reading factored out: the
function receives the lines of the file. Zero lines is FileEmpty; the first
line must split into exactly two tokens with the second equal to pirka;
the remaining lines are parsed by the item loop. -/
def Receipt.parse (fp : List Char) (lines : List (List Char)) : Except ReceiptParseError Receipt :=
  match lines with
  | [] => .error (.FileEmpty fp)
  | first :: rest =>
    match splitOnChar ' ' first with
    | [purchaser, marker] =>
      if marker = "pirka".data then
        match parseItems fp rest with
        | .error e => .error e
        | .ok items => .ok ⟨fp, purchaser, items⟩
      else .error (.FormatError fp headerProblem)
    | _ => .error (.FormatError fp headerProblem)

/-- resolve_person from src/accounting.rs. The HashSet of participants is
modelled as a list in an arbitrary iteration order; the loop returns the
first participant the given identifier is a prefix of, and otherwise falls
back to all for a, paulis for p, and a Person label embedding the raw
identifier. -/
def resolve_person (participants : List (List Char)) (pfx : List Char) : List Char :=
  match participants.find? (fun person => pfx.isPrefixOf person) with
  | some person => person
  | none =>
    if pfx = "a".data then "all".data
    else if pfx = "p".data then "paulis".data
    else "Person ".data ++ pfx

/-- A Rust HashMap with string keys, modelled as a partial function. -/
abbrev StrMap (α : Type) : Type := List Char → Option α

/-- The empty map. -/
def emptyStrMap {α : Type} : StrMap α := fun _ => none

/-- HashMap::insert: bind a key, replacing any previous binding. -/
def mapInsert {α : Type} (k : List Char) (v : α) (m : StrMap α) : StrMap α :=
  fun q => if q = k then some v else m q

/-- The spending ledger built by summary in src/accounting.rs. -/
abbrev Ledger : Type := StrMap (StrMap Nat)

/-- Lookup of one (purchaser, consumer) total in the ledger. -/
def entry (L : Ledger) (p c : List Char) : Option Nat :=
  (L p).bind fun inner => inner c

/-- The participant initialisation loop of summary: every purchaser gets a
top-level entry holding an empty inner map. Duplicate purchasers re-insert
the same empty map, so list order and multiplicity are irrelevant. -/
def initSpending (receipts : List Receipt) : Ledger :=
  (receipts.map Receipt.purchaser).foldl (fun m q => mapInsert q emptyStrMap m) emptyStrMap

/-- One accumulation step of summary: read the buyer's inner map (the Rust
index expression panics when the buyer is absent, modelled as none), read
the consumer's current total defaulting to 0, and store the u32 sum. -/
def accumulate (m : Ledger) (buyer consumer : List Char) (amount : Nat) : Option Ledger :=
  match m buyer with
  | none => none
  | some inner =>
      some (mapInsert buyer (mapInsert consumer (((inner consumer).getD 0 + amount) % 2^32) inner) m)

/-- The inner item loop of summary for one receipt. -/
def spendItems (m : Ledger) (buyer : List Char) : List Item → Option Ledger
  | [] => some m
  | it :: rest =>
    match accumulate m buyer it.consumer (Item.total_price it) with
    | none => none
    | some m2 => spendItems m2 buyer rest

/-- The outer receipt loop of summary. -/
def spendReceipts (m : Ledger) : List Receipt → Option Ledger
  | [] => some m
  | r :: rest =>
    match spendItems m r.purchaser r.items with
    | none => none
    | some m2 => spendReceipts m2 rest

/-- The ledger summary builds from a collection of receipts. -/
def spendingOf (receipts : List Receipt) : Option Ledger :=
  spendReceipts (initSpending receipts) receipts

/-- One (purchaser, consumer, total_price) record per item, in processing
order across all receipts. -/
def itemTriples (receipts : List Receipt) : List (List Char × List Char × Nat) :=
  (receipts.map fun r => r.items.map fun it => (r.purchaser, it.consumer, Item.total_price it)).flatten

/-- Accumulation of a flat list of (buyer, consumer, amount) records. -/
def accumAll (ts : List (List Char × List Char × Nat)) (m : Ledger) : Option Ledger :=
  match ts with
  | [] => some m
  | t :: rest =>
    match accumulate m t.1 t.2.1 t.2.2 with
    | none => none
    | some m2 => accumAll rest m2

/-- Whether a record list contains some record with the given (purchaser,
consumer) pair. -/
def anyPair (ts : List (List Char × List Char × Nat)) (p c : List Char) : Bool :=
  ts.any fun t => t.1 == p && t.2.1 == c

/-- The sum of the amounts of the records with the given (purchaser,
consumer) pair. -/
def sumPairs (ts : List (List Char × List Char × Nat)) (p c : List Char) : Nat :=
  ((ts.filter fun t => t.1 == p && t.2.1 == c).map fun t => t.2.2).sum

/-- Whether some item of some receipt has the given (purchaser, consumer)
pair. -/
def occursPair (receipts : List Receipt) (p c : List Char) : Bool :=
  anyPair (itemTriples receipts) p c

/-- The sum of total_price over all items with the given (purchaser,
consumer) pair, across all receipts. -/
def pairSum (receipts : List Receipt) (p c : List Char) : Nat :=
  sumPairs (itemTriples receipts) p c

/-- The outcome of the hardcoded two-party settlement at the end of
summary: both gross debts, the owing direction, and the netted amount. -/
structure Settlement where
  raitis_debt : Nat
  oskars_debt : Nat
  raitis_owes : Bool
  amount : Nat
deriving DecidableEq

/-- The settlement computation at the end of summary in src/accounting.rs.
Each Rust index expression panics when the key is absent, modelled as none;
the debts are u32 sums of the other party's direct spending and half (integer
division) of their spending on the shared identifier a, netted by comparison. -/
def settlement (L : Ledger) : Option Settlement :=
  match L "oskars".data with
  | none => none
  | some om =>
    match om "r".data, om "a".data with
    | some r, some a =>
      match L "raitis".data with
      | none => none
      | some rm =>
        match rm "o".data, rm "a".data with
        | some o, some a2 =>
          let raitis_debt := (r + a / 2) % 2^32
          let oskars_debt := (o + a2 / 2) % 2^32
          if oskars_debt < raitis_debt then
            some ⟨raitis_debt, oskars_debt, true, raitis_debt - oskars_debt⟩
          else
            some ⟨raitis_debt, oskars_debt, false, oskars_debt - raitis_debt⟩
        | _, _ => none
    | _, _ => none

/-- The aggregation and settlement pipeline of summary. -/
def summary_settlement (receipts : List Receipt) : Option Settlement :=
  (spendingOf receipts).bind settlement

/-- A non-empty all-digits string with value in u32 range: the strings the
specification says parse_price accepts as a numeric part. -/
def U32DigitsP (l : List Char) : Prop :=
  l ≠ [] ∧ (∀ c ∈ l, c.isDigit = true) ∧ digitsVal l < 2^32

/-- A string Rust u32 parsing accepts: digits, optionally preceded by a
plus sign. -/
def U32LitP (l : List Char) : Prop :=
  U32DigitsP l ∨ ∃ t, l = '+' :: t ∧ U32DigitsP t

/-- The numeric value of a string accepted by Rust u32 parsing. -/
def litVal (l : List Char) : Nat :=
  match l with
  | '+' :: t => digitsVal t
  | _ => digitsVal l

/-- The scaling parse_price applies to the fractional part: one single
digit means tenths, two digits mean hundredths. -/
def fracScaled (f : List Char) (v : Nat) : Nat :=
  if utf8Len f = 1 then v * 10 else v

/-- The shape of the price strings parse_price accepts, with the value it
returns: either no dot and a u32 integer part, or one dot with an empty or
u32 integer part and a 1-2 byte u32 fractional part; the value is the u32
combination of integer part times 100 and the scaled fractional part. -/
def PriceShape (s : List Char) (v : Nat) : Prop :=
  (∃ d, splitOnChar '.' s = [d] ∧ U32LitP d ∧ v = litVal d * 100 % 2^32) ∨
  (∃ d f, splitOnChar '.' s = [d, f] ∧ (d = [] ∨ U32LitP d) ∧ f ≠ [] ∧ utf8Len f ≤ 2 ∧
    U32LitP f ∧ v = ((if d = [] then 0 else litVal d) * 100 + fracScaled f (litVal f)) % 2^32)

/-! Characterisation of Rust u32 string parsing. -/

theorem splitOnChar_ne_nil (sep : Char) (l : List Char) : splitOnChar sep l ≠ [] := by
  induction l with
  | nil => simp [splitOnChar]
  | cons c rest ih =>
    simp only [splitOnChar]
    split
    · simp
    · split <;> simp

theorem digits_branch_iff (t : List Char) (v : Nat) :
    (if t = [] then none
     else if t.all Char.isDigit then
       if digitsVal t < 2^32 then some (digitsVal t) else none
     else none) = some v ↔ U32DigitsP t ∧ v = digitsVal t := by
  constructor
  · intro h
    split at h
    · simp at h
    · split at h
      · split at h
        · exact ⟨⟨by assumption, List.all_eq_true.mp (by assumption), by assumption⟩,
            (Option.some.inj h).symm⟩
        · simp at h
      · simp at h
  · rintro ⟨⟨hne, hdig, hlt⟩, rfl⟩
    rw [if_neg hne, if_pos (List.all_eq_true.mpr hdig), if_pos hlt]

theorem parseU32_some_iff (s : List Char) (v : Nat) :
    parseU32 s = some v ↔ U32LitP s ∧ v = litVal s := by
  rcases s with _ | ⟨c, r⟩
  · simp [parseU32, U32LitP, U32DigitsP]
  · by_cases hc : c = '+'
    · subst hc
      have h1 : parseU32 ('+' :: r) =
          (if r = [] then none
           else if r.all Char.isDigit then
             if digitsVal r < 2^32 then some (digitsVal r) else none
           else none) := rfl
      rw [h1, digits_branch_iff]
      constructor
      · rintro ⟨hd, rfl⟩
        exact ⟨Or.inr ⟨r, rfl, hd⟩, rfl⟩
      · rintro ⟨hlit, rfl⟩
        rcases hlit with hd | ⟨t, ht, hd⟩
        · exact absurd (hd.2.1 '+' (by simp)) (by decide)
        · cases ht
          exact ⟨hd, rfl⟩
    · have h1 : parseU32 (c :: r) =
          (if (c :: r) = [] then none
           else if (c :: r).all Char.isDigit then
             if digitsVal (c :: r) < 2^32 then some (digitsVal (c :: r)) else none
           else none) := by
        simp [parseU32, List.head?, hc]
      have h2 : litVal (c :: r) = digitsVal (c :: r) := by
        unfold litVal
        split
        · rename_i heq
          injection heq with heq1 _
          exact absurd heq1 hc
        · rfl
      rw [h1, digits_branch_iff, h2]
      constructor
      · rintro ⟨hd, rfl⟩
        exact ⟨Or.inl hd, rfl⟩
      · rintro ⟨hlit, rfl⟩
        rcases hlit with hd | ⟨t, ht, hd⟩
        · exact ⟨hd, rfl⟩
        · injection ht with ht1 _
          exact absurd ht1 hc

/-! Characterisation of Receipt::parse_price. -/

theorem U32LitP_ne_nil {l : List Char} (h : U32LitP l) : l ≠ [] := by
  rcases h with hd | ⟨t, ht, _⟩
  · exact hd.1
  · simp [ht]

theorem parse_price_eq_one (s d : List Char) (h : splitOnChar '.' s = [d]) :
    Receipt.parse_price s =
      if d = [] then none
      else (parseU32 d).map (fun x => (x * 100 + 0) % 2^32) := by
  by_cases hd : d = []
  · subst hd
    simp [Receipt.parse_price, h]
  · simp only [Receipt.parse_price, h]
    simp [hd]
    cases parseU32 d <;> simp

theorem parse_price_eq_two (s d f : List Char) (h : splitOnChar '.' s = [d, f]) :
    Receipt.parse_price s =
      (if d = [] then some 0 else parseU32 d).bind (fun dollars =>
        if f = [] ∨ 2 < utf8Len f then none
        else (parseU32 f).map (fun x =>
          (dollars * 100 + (if utf8Len f = 1 then x * 10 else x)) % 2^32)) := by
  simp only [Receipt.parse_price, h]
  norm_num
  cases hdd : (if d = [] then some 0 else parseU32 d : Option Nat) with
  | none => simp [hdd]
  | some x =>
    simp only [hdd, Option.some_bind]
    by_cases hff : f = [] ∨ 2 < utf8Len f
    · simp [hff]
    · simp only [if_neg hff]
      cases parseU32 f <;> simp

theorem parse_price_eq_more (s d f g : List Char) (parts : List (List Char))
    (h : splitOnChar '.' s = d :: f :: g :: parts) :
    Receipt.parse_price s = none := by
  simp [Receipt.parse_price, h]

theorem parse_price_some_iff (s : List Char) (v : Nat) :
    Receipt.parse_price s = some v ↔ PriceShape s v := by
  rcases hsp : splitOnChar '.' s with _ | ⟨d, _ | ⟨f, _ | ⟨g, parts⟩⟩⟩
  · exact absurd hsp (splitOnChar_ne_nil _ _)
  · rw [parse_price_eq_one s d hsp]
    unfold PriceShape
    rw [hsp]
    constructor
    · intro h
      split at h
      · simp at h
      · rename_i hd
        cases hu : parseU32 d with
        | none => rw [hu] at h; simp at h
        | some x =>
          rw [hu] at h
          simp only [Option.map_some'] at h
          obtain ⟨hlit, hx⟩ := (parseU32_some_iff d x).mp hu
          subst hx
          refine Or.inl ⟨d, rfl, hlit, ?_⟩
          have := Option.some.inj h
          omega
    · rintro (⟨d', hd', hlit, hv⟩ | ⟨d', f', hdf, _⟩)
      · have hd'd : d' = d := by
          injection hd' with h1 _
          exact h1.symm
        subst hd'd
        rw [if_neg (U32LitP_ne_nil hlit)]
        rw [(parseU32_some_iff d' (litVal d')).mpr ⟨hlit, rfl⟩]
        simp [hv]
      · simp at hdf
  · rw [parse_price_eq_two s d f hsp]
    unfold PriceShape
    rw [hsp]
    constructor
    · intro h
      cases hdd : (if d = [] then some 0 else parseU32 d : Option Nat) with
      | none => rw [hdd] at h; simp at h
      | some x =>
        rw [hdd] at h
        simp only [Option.some_bind] at h
        split at h
        · simp at h
        · rename_i hf
          push_neg at hf
          cases hu : parseU32 f with
          | none => rw [hu] at h; simp at h
          | some y =>
            rw [hu] at h
            simp only [Option.map_some'] at h
            obtain ⟨hlitf, hy⟩ := (parseU32_some_iff f y).mp hu
            refine Or.inr ⟨d, f, rfl, ?_, hf.1, hf.2, hlitf, ?_⟩
            · by_cases hd : d = []
              · exact Or.inl hd
              · rw [if_neg hd] at hdd
                exact Or.inr ((parseU32_some_iff d x).mp hdd).1
            · have hx : x = if d = [] then 0 else litVal d := by
                by_cases hd : d = []
                · rw [if_pos hd] at hdd ⊢
                  exact (Option.some.inj hdd).symm
                · rw [if_neg hd] at hdd ⊢
                  exact ((parseU32_some_iff d x).mp hdd).2
              subst hy
              unfold fracScaled
              rw [← hx]
              exact (Option.some.inj h).symm
    · rintro (⟨d', hd', _⟩ | ⟨d', f', hdf, hdlit, hfne, hflen, hflit, hv⟩)
      · simp at hd'
      · have hd1 : d' = d := by
          injection hdf with h1 _
          exact h1.symm
        have hf1 : f' = f := by
          injection hdf with _ h2
          injection h2 with h2 _
          exact h2.symm
        subst hd1
        subst hf1
        have hstep : (if d' = [] then some 0 else parseU32 d' : Option Nat) =
            some (if d' = [] then 0 else litVal d') := by
          by_cases hd : d' = []
          · simp [hd]
          · rw [if_neg hd, if_neg hd]
            exact (parseU32_some_iff d' _).mpr ⟨hdlit.resolve_left hd, rfl⟩
        rw [hstep]
        simp only [Option.some_bind]
        rw [if_neg (by push_neg; exact ⟨hfne, hflen⟩)]
        rw [(parseU32_some_iff f' (litVal f')).mpr ⟨hflit, rfl⟩]
        simp only [Option.map_some']
        rw [hv]
        unfold fracScaled
        rfl
  · rw [parse_price_eq_more s d f g parts hsp]
    unfold PriceShape
    rw [hsp]
    constructor
    · intro h
      simp at h
    · rintro (⟨d', h', _⟩ | ⟨d', f', h', _⟩) <;> simp at h'

/-- C1: amended. parse_price accepts exactly the strings whose dot-split has
one or two parts, each present numeric part being accepted by Rust u32
parsing (digits with an optional leading plus sign, value below 2^32), the
fractional part being 1 or 2 bytes, and at least the integer part (without a
dot) or a non-empty fractional part (with a dot) present; the value is the
u32 (mod 2^32) combination of integer part times 100 and the scaled
fractional part; the listed edge cases hold as stated. -/
theorem c1_price_amended :
    (∀ s v, Receipt.parse_price s = some v ↔ PriceShape s v) ∧
    Receipt.parse_price "0".data = some 0 ∧
    Receipt.parse_price ".0".data = some 0 ∧
    Receipt.parse_price "420".data = some 42000 ∧
    Receipt.parse_price ".3".data = some 30 ∧
    Receipt.parse_price "1,3".data = none ∧
    Receipt.parse_price ".".data = none ∧
    Receipt.parse_price "5.".data = none ∧
    Receipt.parse_price "0.001".data = none :=
  ⟨parse_price_some_iff, by decide, by decide, by decide, by decide, by decide,
   by decide, by decide, by decide⟩

/-- C1: counterexample to the claim as stated. The string +1 contains a
non-digit character yet parses (Rust u32 parsing accepts a leading plus
sign), and the all-digits string 4294967296 is rejected (u32 overflow), so
parse_price does not return Some exactly on digit-shaped strings. -/
theorem c1_price_cex :
    Receipt.parse_price "+1".data = some 100 ∧
    Char.isDigit '+' = false ∧
    Receipt.parse_price "4294967296".data = none ∧
    (∀ c ∈ "4294967296".data, c.isDigit = true) :=
  ⟨by decide, by decide, by decide, by decide⟩

/-- C1: witness instantiating the amended characterisation at 420. -/
theorem c1_price_witness : Receipt.parse_price "420".data = some 42000 :=
  (c1_price_amended.1 "420".data 42000).mpr
    (Or.inl ⟨"420".data, rfl, Or.inl ⟨by decide, by decide, by decide⟩, by decide⟩)

/-- C10: amended. The minor-unit arithmetic is exact only below 2^32: when
single_price * count is below 2^32, total_price returns it exactly, and when
the mathematical value integer * 100 + scaled fraction of an accepted price
string is below 2^32, parse_price returns it exactly; every parse_price
result is below 2^32; but the computations wrap modulo 2^32 (u32
wrap-around) rather than staying in range for all accepted inputs. -/
theorem c10_overflow_amended :
    (∀ it : Item, it.single_price * it.count < 2^32 →
      Item.total_price it = it.single_price * it.count) ∧
    (∀ s v, Receipt.parse_price s = some v → v < 2^32) ∧
    (∀ s d, splitOnChar '.' s = [d] → U32LitP d → litVal d * 100 < 2^32 →
      Receipt.parse_price s = some (litVal d * 100)) ∧
    (∀ s d f, splitOnChar '.' s = [d, f] → (d = [] ∨ U32LitP d) → f ≠ [] →
      utf8Len f ≤ 2 → U32LitP f →
      (if d = [] then 0 else litVal d) * 100 + fracScaled f (litVal f) < 2^32 →
      Receipt.parse_price s =
        some ((if d = [] then 0 else litVal d) * 100 + fracScaled f (litVal f))) := by
  refine ⟨?_, ?_, ?_, ?_⟩
  · intro it hlt
    unfold Item.total_price
    exact Nat.mod_eq_of_lt hlt
  · intro s v h
    rcases (parse_price_some_iff s v).mp h with ⟨d, _, _, hv⟩ | ⟨d, f, _, _, _, _, _, hv⟩ <;>
      · subst hv
        exact Nat.mod_lt _ (by norm_num)
  · intro s d hsp hlit hlt
    exact (parse_price_some_iff s _).mpr
      (Or.inl ⟨d, hsp, hlit, (Nat.mod_eq_of_lt hlt).symm⟩)
  · intro s d f hsp hdlit hfne hflen hflit hlt
    exact (parse_price_some_iff s _).mpr
      (Or.inr ⟨d, f, hsp, hdlit, hfne, hflen, hflit, (Nat.mod_eq_of_lt hlt).symm⟩)

/-- C10: counterexample to the claim as stated. For the all-digits input
42949673 the integer part parses as a u32 and the empty fractional side is
accepted, yet dollars * 100 overflows u32: the mathematical value is
4294967300 and parse_price returns its u32 wrap 4; that single_price is even
reachable from the accepted string 21474836.48, and total_price of a parsed
item with single_price 2147483648 and count 2 wraps to 0. -/
theorem c10_overflow_cex :
    Receipt.parse_price "42949673".data = some 4 ∧
    42949673 * 100 = 4294967300 ∧
    Receipt.parse_price "21474836.48".data = some 2147483648 ∧
    Item.total_price ⟨[], "g".data, 2147483648, 2⟩ = 0 :=
  ⟨by decide, by decide, by decide, by decide⟩

/-- C10: witness instantiating the amended no-overflow bound at an
in-range item. -/
theorem c10_overflow_witness :
    Item.total_price ⟨[], "g".data, 200, 3⟩ = 200 * 3 :=
  c10_overflow_amended.1 ⟨[], "g".data, 200, 3⟩ (by norm_num)

/-! Characterisation of Item::parse. -/

theorem append_ne_of_take_ne (a b x y : List Char) (n : Nat) (ha : n ≤ a.length)
    (hb : n ≤ b.length) (hne : a.take n ≠ b.take n) : a ++ x ≠ b ++ y := by
  intro h
  have htake := congrArg (List.take n) h
  rw [List.take_append_eq_append_take, List.take_append_eq_append_take] at htake
  have h1 : n - a.length = 0 := by omega
  have h2 : n - b.length = 0 := by omega
  rw [h1, h2] at htake
  simp at htake
  exact hne htake

/-- C4: amended. Given a line splitting into at least three tokens whose
price token parses and whose last token passes the consumer check, a token 1
of the form x followed by a remainder makes the remainder parse as the count
under Rust u32 rules, where a count of 0 is accepted (the count need not be
positive, only a non-negative u32); a remainder that does not parse is a
format error; at least 4 tokens are then required; the name joins the tokens
between the count marker and the consumer. Without the x marker the count
defaults to 1 and the name joins the tokens from index 1 up to the consumer. -/
theorem c4_count_amended :
    ∀ fp line t0 t1 t2 rest pr,
      splitOnChar ' ' (trimList line) = t0 :: t1 :: t2 :: rest →
      Receipt.parse_price t0 = some pr →
      utf8Len ((t2 :: rest).getLastD []) ≤ 1 →
      ((∀ cs, t1 = 'x' :: cs →
        (parseU32 cs = none →
          Item.parse fp line =
            .error (.FormatError fp ("Unable to parse item count / multiplier ".data ++ t1))) ∧
        (∀ n, parseU32 cs = some n →
          (rest = [] →
            Item.parse fp line =
              .error (.FormatError fp ("Unable to parse item line ".data ++ line))) ∧
          (rest ≠ [] →
            Item.parse fp line =
              .ok ⟨List.intercalate [' '] ((t2 :: rest).dropLast),
                   (t2 :: rest).getLastD [], pr, n⟩))) ∧
       (t1.head? ≠ some 'x' →
        Item.parse fp line =
          .ok ⟨List.intercalate [' '] ((t1 :: t2 :: rest).dropLast),
               (t2 :: rest).getLastD [], pr, 1⟩)) := by
  intro fp line t0 t1 t2 rest pr hsplit hpr hcons
  have hc2 : ¬ 1 < utf8Len ((t2 :: rest).getLastD []) := Nat.not_lt.mpr hcons
  constructor
  · rintro cs rfl
    constructor
    · intro hcount
      simp only [Item.parse, hsplit, hpr, if_neg hc2]
      simp [hcount]
    · intro n hcount
      constructor
      · rintro rfl
        simp only [Item.parse, hsplit, hpr, if_neg hc2]
        simp [hcount]
      · intro hne
        rcases rest with _ | ⟨r1, rest2⟩
        · exact absurd rfl hne
        · simp only [Item.parse, hsplit, hpr, if_neg hc2]
          simp [hcount]
  · intro hx
    simp only [Item.parse, hsplit, hpr, if_neg hc2]
    simp [hx]

/-- C4: counterexample to the claim as stated. On the line 5 x0 bread g the
digits after the count marker parse as 0, which is not a positive integer,
yet the item is accepted with count 0. -/
theorem c4_count_cex :
    Item.parse [] "5 x0 bread g".data = .ok ⟨"bread".data, "g".data, 500, 0⟩ := rfl

/-- C4: witness instantiating the amended count rules on a 5-token line
with an x2 marker. -/
theorem c4_count_witness :
    Item.parse [] "1 x2 ab cd k".data = .ok ⟨"ab cd".data, "k".data, 100, 2⟩ := by
  have h := c4_count_amended [] "1 x2 ab cd k".data "1".data "x2".data "ab".data
    ["cd".data, "k".data] 100 (by decide) (by decide) (by decide)
  have h2 := ((h.1 "2".data rfl).2 2 (by decide)).2 (by decide)
  rw [h2]
  rfl

/-- C5: amended. For an item line with at least three tokens whose price
token parses, Item::parse returns the consumer-naming format error exactly
when the UTF-8 byte length of the last token exceeds 1: the check is on
Rust byte length, not character count, so a one-character multi-byte token
is also rejected. -/
theorem c5_consumer_amended :
    ∀ fp line t0 t1 t2 rest pr,
      splitOnChar ' ' (trimList line) = t0 :: t1 :: t2 :: rest →
      Receipt.parse_price t0 = some pr →
      (Item.parse fp line =
          .error (.FormatError fp
            ("Unable to parse item consumer ".data ++ (t2 :: rest).getLastD [])) ↔
        1 < utf8Len ((t2 :: rest).getLastD [])) := by
  intro fp line t0 t1 t2 rest pr hsplit hpr
  constructor
  · intro heq
    by_contra hnlt
    simp only [Item.parse, hsplit, hpr, if_neg hnlt] at heq
    by_cases hx : t1.head? = some 'x'
    · simp only [if_pos hx] at heq
      cases hcount : parseU32 t1.tail with
      | none =>
        rw [hcount] at heq
        simp only [Except.error.injEq, ReceiptParseError.FormatError.injEq, true_and] at heq
        exact append_ne_of_take_ne _ _ _ _ 24 (by decide) (by decide) (by decide) heq
      | some n =>
        rw [hcount] at heq
        rcases rest with _ | ⟨r1, rest2⟩
        · simp only [Except.error.injEq, ReceiptParseError.FormatError.injEq, true_and] at heq
          exact append_ne_of_take_ne _ _ _ _ 24 (by decide) (by decide) (by decide) heq
        · simp at heq
    · simp only [if_neg hx] at heq
      simp at heq
  · intro hlt
    simp only [Item.parse, hsplit, hpr, if_pos hlt]

/-- C5: counterexample to the claim as stated. The last token of the line
5 bread é is exactly one character, yet Item::parse rejects it with the
consumer format error, because the check is on the 2-byte UTF-8 length. -/
theorem c5_consumer_cex :
    Item.parse [] "5 bread é".data =
      .error (.FormatError [] ("Unable to parse item consumer ".data ++ "é".data)) ∧
    ("é".data).length = 1 := ⟨rfl, rfl⟩

/-- C5: witness instantiating the amended consumer rule on a two-byte last
token. -/
theorem c5_consumer_witness :
    Item.parse [] "5 bread gg".data =
      .error (.FormatError [] ("Unable to parse item consumer ".data ++ "gg".data)) := by
  have h := (c5_consumer_amended [] "5 bread gg".data "5".data "bread".data "gg".data []
    500 (by decide) (by decide)).mpr (by decide)
  rw [h]
  rfl

/-- C8: the four documented Item::parse examples: a plain 4-token line with
count 1 and a two-token name, a count-marker line with price 0.3 scaled to
30 and count 4, and the two too-short lines 2 p and 2 x3 k, which both fail
with the item line format error. -/
theorem c8_item_examples :
    Item.parse [] "15 chocolate donut g".data =
      .ok ⟨"chocolate donut".data, "g".data, 1500, 1⟩ ∧
    Item.parse [] "0.3 x4 pizza m".data = .ok ⟨"pizza".data, "m".data, 30, 4⟩ ∧
    Item.parse [] "2 p".data =
      .error (.FormatError [] ("Unable to parse item line ".data ++ "2 p".data)) ∧
    Item.parse [] "2 x3 k".data =
      .error (.FormatError [] ("Unable to parse item line ".data ++ "2 x3 k".data)) :=
  ⟨rfl, rfl, rfl, rfl⟩

/-! Characterisation of Receipt::parse. -/

theorem item_parse_error_shape (fp line : List Char) (e : ReceiptParseError)
    (h : Item.parse fp line = .error e) : ∃ pb, e = .FormatError fp pb := by
  unfold Item.parse at h
  split at h
  · split at h
    · exact ⟨_, (Except.error.inj h).symm⟩
    · split at h
      · exact ⟨_, (Except.error.inj h).symm⟩
      · split at h
        · split at h
          · exact ⟨_, (Except.error.inj h).symm⟩
          · split at h
            · exact ⟨_, (Except.error.inj h).symm⟩
            · simp at h
        · simp at h
  · exact ⟨_, (Except.error.inj h).symm⟩

theorem parseItems_error_shape (fp : List Char) (ls : List (List Char)) (e : ReceiptParseError)
    (h : parseItems fp ls = .error e) : ∃ pb, e = .FormatError fp pb := by
  induction ls with
  | nil => simp [parseItems] at h
  | cons line rest ih =>
    unfold parseItems at h
    split at h
    · exact ih h
    · split at h
      · rename_i e1 heq
        rw [Except.error.inj h] at heq
        exact item_parse_error_shape fp line e heq
      · split at h
        · rename_i e1 heq
          rw [Except.error.inj h] at heq
          exact ih heq
        · simp at h

theorem parseItems_comment_skip (fp : List Char) (pre : List (List Char)) (cl : List Char)
    (post : List (List Char)) :
    parseItems fp (pre ++ ('#' :: cl) :: post) = parseItems fp (pre ++ post) := by
  induction pre with
  | nil => simp [parseItems]
  | cons l pre2 ih =>
    simp only [List.cons_append, parseItems, List.append_eq]
    rw [ih]

theorem parseItems_fail (fp : List Char) (pre : List (List Char)) (l0 : List Char)
    (post : List (List Char)) (e : ReceiptParseError)
    (hpre : ∀ l ∈ pre, l.head? = some '#' ∨ ∃ it, Item.parse fp l = .ok it)
    (hc : l0.head? ≠ some '#') (he : Item.parse fp l0 = .error e) :
    parseItems fp (pre ++ l0 :: post) = .error e := by
  induction pre with
  | nil =>
    simp only [List.nil_append, parseItems]
    rw [if_neg hc, he]
  | cons l pre2 ih =>
    have hrest : ∀ l2 ∈ pre2, l2.head? = some '#' ∨ ∃ it, Item.parse fp l2 = .ok it :=
      fun l2 h2 => hpre l2 (by simp [h2])
    simp only [List.cons_append, parseItems, List.append_eq]
    rcases hpre l (by simp) with hcomment | ⟨it, hok⟩
    · rw [if_pos hcomment]
      exact ih hrest
    · by_cases hcm : l.head? = some '#'
      · rw [if_pos hcm]
        exact ih hrest
      · rw [if_neg hcm, hok, ih hrest]

/-- C6: Receipt::parse fails with FileEmpty exactly on zero lines; a first
line that does not split into exactly two tokens with second token pirka is
the header format error; a comment line anywhere after the header is skipped
entirely; and the first non-comment line whose item parse fails makes the
whole file fail with exactly that item error, which carries the file path,
regardless of the lines after it. -/
theorem c6_receipt_parse :
    (∀ fp lines, Receipt.parse fp lines = .error (.FileEmpty fp) ↔ lines = []) ∧
    (∀ fp first rest, (∀ p, splitOnChar ' ' first ≠ [p, "pirka".data]) →
      Receipt.parse fp (first :: rest) = .error (.FormatError fp headerProblem)) ∧
    (∀ fp first pre cl post,
      Receipt.parse fp (first :: (pre ++ ('#' :: cl) :: post)) =
        Receipt.parse fp (first :: (pre ++ post))) ∧
    (∀ fp first purch pre l0 post e,
      splitOnChar ' ' first = [purch, "pirka".data] →
      (∀ l ∈ pre, l.head? = some '#' ∨ ∃ it, Item.parse fp l = .ok it) →
      l0.head? ≠ some '#' →
      Item.parse fp l0 = .error e →
      Receipt.parse fp (first :: (pre ++ l0 :: post)) = .error e ∧
        ∃ pb, e = .FormatError fp pb) := by
  refine ⟨?_, ?_, ?_, ?_⟩
  · intro fp lines
    constructor
    · intro h
      rcases lines with _ | ⟨first, rest⟩
      · rfl
      · exfalso
        simp only [Receipt.parse] at h
        split at h
        · split at h
          · split at h
            · rename_i e1 heq
              obtain ⟨pb, hpb⟩ := parseItems_error_shape fp _ e1 heq
              rw [hpb] at h
              simp at h
            · simp at h
          · simp [headerProblem] at h
        · simp [headerProblem] at h
    · rintro rfl
      rfl
  · intro fp first rest hne
    simp only [Receipt.parse]
    split
    · rename_i purchaser marker heq
      rw [if_neg (fun hm => hne purchaser (by rw [heq, hm]))]
    · rfl
  · intro fp first pre cl post
    simp only [Receipt.parse]
    split
    · rename_i purchaser marker heq
      by_cases hm : marker = "pirka".data
      · rw [if_pos hm, if_pos hm, parseItems_comment_skip]
      · rw [if_neg hm, if_neg hm]
    · rfl
  · intro fp first purch pre l0 post e hhdr hpre hc he
    refine ⟨?_, item_parse_error_shape fp l0 e he⟩
    simp only [Receipt.parse, hhdr]
    rw [if_pos trivial, parseItems_fail fp pre l0 post e hpre hc he]

/-- C6: witness instantiating the parse rules at an empty file and at the
first line bob hello. -/
theorem c6_receipt_witness :
    Receipt.parse [] [] = .error (.FileEmpty []) ∧
    Receipt.parse [] ["bob hello".data] = .error (.FormatError [] headerProblem) := by
  constructor
  · exact (c6_receipt_parse.1 [] []).mpr rfl
  · refine c6_receipt_parse.2.1 [] "bob hello".data [] ?_
    intro p h
    rw [show splitOnChar ' ' "bob hello".data = ["bob".data, "hello".data] from by decide] at h
    injection h with h1 h2
    injection h2 with h2 _
    exact absurd h2 (by decide)

/-! Characterisation of resolve_person. -/

/-- C7: for any participant iteration order, whenever some participant name
begins with the identifier, resolve_person returns a matching participant,
and exactly the unique matching one when only one matches; with no match it
returns the literal all for identifier a, the hardcoded paulis for
identifier p, and otherwise the synthesized Person label embedding the raw
identifier; it always returns a name (the function is total). -/
theorem c7_resolve_person :
    (∀ ps pfx, (∃ q ∈ ps, pfx.isPrefixOf q = true) →
      resolve_person ps pfx ∈ ps ∧ pfx.isPrefixOf (resolve_person ps pfx) = true) ∧
    (∀ ps pfx p, p ∈ ps → pfx.isPrefixOf p = true →
      (∀ q ∈ ps, pfx.isPrefixOf q = true → q = p) →
      resolve_person ps pfx = p) ∧
    (∀ ps pfx, (∀ q ∈ ps, pfx.isPrefixOf q = false) →
      (pfx = "a".data → resolve_person ps pfx = "all".data) ∧
      (pfx = "p".data → resolve_person ps pfx = "paulis".data) ∧
      (pfx ≠ "a".data → pfx ≠ "p".data →
        resolve_person ps pfx = "Person ".data ++ pfx)) := by
  refine ⟨?_, ?_, ?_⟩
  · intro ps pfx hex
    unfold resolve_person
    cases hf : ps.find? (fun person => pfx.isPrefixOf person) with
    | none =>
      exfalso
      obtain ⟨q, hq, hpq⟩ := hex
      exact absurd hpq (by simpa using List.find?_eq_none.mp hf q hq)
    | some q =>
      exact ⟨List.mem_of_find?_eq_some hf, List.find?_some hf⟩
  · intro ps pfx p hp hpp huniq
    unfold resolve_person
    cases hf : ps.find? (fun person => pfx.isPrefixOf person) with
    | none =>
      exact absurd hpp (by simpa using List.find?_eq_none.mp hf p hp)
    | some q =>
      exact huniq q (List.mem_of_find?_eq_some hf) (List.find?_some hf)
  · intro ps pfx hnone
    have hf : ps.find? (fun person => pfx.isPrefixOf person) = none :=
      List.find?_eq_none.mpr (fun q hq => by simp [hnone q hq])
    refine ⟨?_, ?_, ?_⟩
    · intro ha
      unfold resolve_person
      rw [hf, ha]
      simp
    · intro hp
      unfold resolve_person
      rw [hf, hp]
      rfl
    · intro ha hp
      unfold resolve_person
      rw [hf, if_neg ha, if_neg hp]

/-- C7: witness instantiating the unique-match case and the three fallback
cases of resolve_person. -/
theorem c7_resolve_person_witness :
    resolve_person ["bob".data, "alice".data] "a".data = "alice".data ∧
    resolve_person ["bob".data] "a".data = "all".data ∧
    resolve_person ["bob".data] "p".data = "paulis".data ∧
    resolve_person ["bob".data] "q".data = "Person q".data := by
  refine ⟨?_, ?_, ?_, ?_⟩
  · exact c7_resolve_person.2.1 ["bob".data, "alice".data] "a".data "alice".data
      (by decide) (by decide) (by decide)
  · exact (c7_resolve_person.2.2 ["bob".data] "a".data (by decide)).1 rfl
  · exact (c7_resolve_person.2.2 ["bob".data] "p".data (by decide)).2.1 rfl
  · exact ((c7_resolve_person.2.2 ["bob".data] "q".data (by decide)).2.2 (by decide) (by decide)).trans (by decide)

/-! Characterisation of the aggregation in summary. -/

theorem mapInsert_self {α : Type} (k : List Char) (v : α) (m : StrMap α) :
    mapInsert k v m k = some v := by
  simp [mapInsert]

theorem mapInsert_other {α : Type} (k q : List Char) (v : α) (m : StrMap α) (h : q ≠ k) :
    mapInsert k v m q = m q := by
  simp [mapInsert, h]

theorem initSpending_foldl (ps : List (List Char)) (m0 : Ledger) (p : List Char) :
    (ps.foldl (fun m q => mapInsert q emptyStrMap m) m0) p =
      if p ∈ ps then some emptyStrMap else m0 p := by
  induction ps generalizing m0 with
  | nil => simp
  | cons q ps ih =>
    simp only [List.foldl_cons, ih]
    by_cases hin : p ∈ ps
    · simp [hin, List.mem_cons]
    · simp only [if_neg hin]
      by_cases hpq : p = q
      · subst hpq
        simp [mapInsert]
      · simp [mapInsert, hpq, List.mem_cons, hin]

theorem initSpending_lookup (receipts : List Receipt) (p : List Char) :
    initSpending receipts p =
      if p ∈ receipts.map Receipt.purchaser then some emptyStrMap else none := by
  unfold initSpending
  rw [initSpending_foldl]
  rfl

theorem entry_init (receipts : List Receipt) (p c : List Char) :
    entry (initSpending receipts) p c = none := by
  unfold entry
  rw [initSpending_lookup]
  split <;> simp [emptyStrMap]

theorem entry_after_insert (m : Ledger) (b c0 : List Char) (v : Nat) (inner : StrMap Nat)
    (h : m b = some inner) (p c : List Char) :
    entry (mapInsert b (mapInsert c0 v inner) m) p c =
      if p = b ∧ c = c0 then some v else entry m p c := by
  unfold entry
  by_cases hp : p = b
  · subst hp
    rw [mapInsert_self, h]
    by_cases hc : c = c0
    · subst hc
      simp [mapInsert]
    · simp [mapInsert, hc]
  · rw [mapInsert_other _ _ _ _ hp]
    simp [hp]

theorem anyPair_cons (t : List Char × List Char × Nat) (ts : List (List Char × List Char × Nat))
    (p c : List Char) :
    anyPair (t :: ts) p c = ((t.1 == p && t.2.1 == c) || anyPair ts p c) := by
  simp [anyPair]

theorem sumPairs_cons (t : List Char × List Char × Nat) (ts : List (List Char × List Char × Nat))
    (p c : List Char) :
    sumPairs (t :: ts) p c =
      (if t.1 == p && t.2.1 == c then t.2.2 else 0) + sumPairs ts p c := by
  unfold sumPairs
  rw [List.filter_cons]
  split <;> simp

theorem sumPairs_eq_zero (ts : List (List Char × List Char × Nat)) (p c : List Char)
    (h : anyPair ts p c = false) : sumPairs ts p c = 0 := by
  unfold sumPairs
  unfold anyPair at h
  rw [List.any_eq_false] at h
  rw [List.filter_eq_nil_iff.mpr h]
  rfl

theorem accumAll_spec (ts : List (List Char × List Char × Nat)) (m : Ledger)
    (hdom : ∀ t ∈ ts, (m t.1).isSome) :
    ∃ L, accumAll ts m = some L ∧
      (∀ p, (L p).isSome ↔ (m p).isSome) ∧
      (∀ p c, entry L p c =
        if anyPair ts p c then
          some (((entry m p c).getD 0 + sumPairs ts p c) % 2^32)
        else entry m p c) := by
  induction ts generalizing m with
  | nil =>
    refine ⟨m, rfl, fun p => Iff.rfl, ?_⟩
    intro p c
    simp [anyPair]
  | cons t ts ih =>
    obtain ⟨b, c0, a⟩ := t
    have hb : (m b).isSome := hdom (b, c0, a) (by simp)
    obtain ⟨inner, hinner⟩ := Option.isSome_iff_exists.mp hb
    have hacc : accumulate m b c0 a =
        some (mapInsert b (mapInsert c0 (((inner c0).getD 0 + a) % 2^32) inner) m) := by
      unfold accumulate
      rw [hinner]
    set m1 := mapInsert b (mapInsert c0 (((inner c0).getD 0 + a) % 2^32) inner) m with hm1
    have hm1dom : ∀ q, (m1 q).isSome ↔ (m q).isSome := by
      intro q
      by_cases hq : q = b
      · subst hq
        rw [hm1, mapInsert_self, hinner]
        simp
      · rw [hm1, mapInsert_other _ _ _ _ hq]
    have hm1entry : ∀ p c, entry m1 p c =
        if p = b ∧ c = c0 then some (((entry m b c0).getD 0 + a) % 2^32) else entry m p c := by
      intro p c
      rw [hm1]
      have hbase : entry m b c0 = inner c0 := by
        unfold entry
        rw [hinner]
        rfl
      rw [entry_after_insert m b c0 _ inner hinner p c, hbase]
    have hdom1 : ∀ t2 ∈ ts, (m1 t2.1).isSome := by
      intro t2 ht2
      rw [hm1dom]
      exact hdom t2 (by simp [ht2])
    obtain ⟨L, hL, hdomL, hentryL⟩ := ih m1 hdom1
    refine ⟨L, ?_, ?_, ?_⟩
    · simp only [accumAll, hacc]
      exact hL
    · intro p
      rw [hdomL p, hm1dom p]
    · intro p c
      rw [hentryL p c, hm1entry p c, anyPair_cons, sumPairs_cons]
      by_cases hp : p = b
      · by_cases hc : c = c0
        · subst hp
          subst hc
          cases hany : anyPair ts p c with
          | true =>
            simp
            omega
          | false =>
            simp [sumPairs_eq_zero ts p c hany]
        · subst hp
          simp [hc, Ne.symm hc]
      · simp [hp, Ne.symm hp]

theorem accumAll_append (ts1 ts2 : List (List Char × List Char × Nat)) (m : Ledger) :
    accumAll (ts1 ++ ts2) m =
      match accumAll ts1 m with
      | none => none
      | some m2 => accumAll ts2 m2 := by
  induction ts1 generalizing m with
  | nil => simp [accumAll]
  | cons t ts1 ih =>
    simp only [List.cons_append, accumAll]
    cases hacc : accumulate m t.1 t.2.1 t.2.2 with
    | none => rfl
    | some m2 => exact ih m2

theorem spendItems_eq_accumAll (m : Ledger) (b : List Char) (items : List Item) :
    spendItems m b items =
      accumAll (items.map fun it => (b, it.consumer, Item.total_price it)) m := by
  induction items generalizing m with
  | nil => rfl
  | cons it items ih =>
    simp only [spendItems, List.map_cons, accumAll]
    cases hacc : accumulate m b it.consumer it.total_price with
    | none => rfl
    | some m2 => exact ih m2

theorem itemTriples_cons (r : Receipt) (rs : List Receipt) :
    itemTriples (r :: rs) =
      (r.items.map fun it => (r.purchaser, it.consumer, Item.total_price it)) ++ itemTriples rs := by
  simp [itemTriples]

theorem spendReceipts_eq_accumAll (m : Ledger) (rs : List Receipt) :
    spendReceipts m rs = accumAll (itemTriples rs) m := by
  induction rs generalizing m with
  | nil => rfl
  | cons r rs ih =>
    rw [itemTriples_cons, accumAll_append]
    simp only [spendReceipts]
    rw [← spendItems_eq_accumAll]
    cases hsp : spendItems m r.purchaser r.items with
    | none => rfl
    | some m2 => exact ih m2

theorem spendingOf_spec (receipts : List Receipt) :
    ∃ L, spendingOf receipts = some L ∧
      (∀ p, (L p).isSome ↔ p ∈ receipts.map Receipt.purchaser) ∧
      (∀ p c, entry L p c =
        if occursPair receipts p c then some (pairSum receipts p c % 2^32) else none) := by
  have hdom : ∀ t ∈ itemTriples receipts, ((initSpending receipts) t.1).isSome := by
    intro t ht
    rw [initSpending_lookup]
    have hmem : t.1 ∈ receipts.map Receipt.purchaser := by
      unfold itemTriples at ht
      rw [List.mem_flatten] at ht
      obtain ⟨l, hl, htl⟩ := ht
      rw [List.mem_map] at hl
      obtain ⟨r, hr, rfl⟩ := hl
      rw [List.mem_map] at htl
      obtain ⟨it, _, rfl⟩ := htl
      exact List.mem_map.mpr ⟨r, hr, rfl⟩
    simp [hmem]
  obtain ⟨L, hL, hdomL, hentry⟩ := accumAll_spec (itemTriples receipts) (initSpending receipts) hdom
  refine ⟨L, ?_, ?_, ?_⟩
  · unfold spendingOf
    rw [spendReceipts_eq_accumAll]
    exact hL
  · intro p
    rw [hdomL p, initSpending_lookup]
    by_cases hmem : p ∈ receipts.map Receipt.purchaser <;> simp [hmem]
  · intro p c
    rw [hentry p c, entry_init]
    unfold occursPair pairSum
    cases anyPair (itemTriples receipts) p c <;> simp

/-- C2: amended. The aggregated ledger always exists, has a top-level entry
exactly for the purchasers appearing in some receipt (an empty inner map
when a purchaser has no items); a (purchaser, consumer) pair has an inner
entry exactly when some item carries that pair, and the stored total is the
sum of total_price over all items with exactly that pair across all
receipts, reduced modulo 2^32 (u32 wrap-around; it equals the plain sum
whenever that sum is below 2^32); every stored total is a non-negative
integer below 2^32. -/
theorem c2_ledger_amended :
    ∀ receipts : List Receipt, ∃ L, spendingOf receipts = some L ∧
      (∀ p, (L p).isSome ↔ p ∈ receipts.map Receipt.purchaser) ∧
      (∀ p c, occursPair receipts p c = true →
        entry L p c = some (pairSum receipts p c % 2^32)) ∧
      (∀ p c, occursPair receipts p c = false → entry L p c = none) ∧
      (∀ p c v, entry L p c = some v → 0 ≤ v ∧ v < 2^32) := by
  intro receipts
  obtain ⟨L, hL, hdom, hentry⟩ := spendingOf_spec receipts
  refine ⟨L, hL, hdom, ?_, ?_, ?_⟩
  · intro p c hocc
    rw [hentry p c, if_pos hocc]
  · intro p c hocc
    rw [hentry p c]
    simp [hocc]
  · intro p c v hsome
    rw [hentry p c] at hsome
    split at hsome
    · refine ⟨Nat.zero_le v, ?_⟩
      rw [← Option.some.inj hsome]
      exact Nat.mod_lt _ (by norm_num)
    · simp at hsome

/-- C2: counterexample to the claim as stated. Two well-formed receipts by
purchaser a, each with one consumer-b item of total 2147483648, make the
true sum 4294967296, but the u32 accumulation wraps and the ledger stores
0, not the sum of the totals. -/
theorem c2_ledger_cex :
    (spendingOf [⟨[], "a".data, [⟨[], "b".data, 2147483648, 1⟩]⟩,
                 ⟨[], "a".data, [⟨[], "b".data, 2147483648, 1⟩]⟩]).map
        (fun L => entry L "a".data "b".data) = some (some 0) ∧
    Item.total_price ⟨[], "b".data, 2147483648, 1⟩ = 2147483648 ∧
    2147483648 + 2147483648 = 4294967296 := ⟨rfl, rfl, rfl⟩

/-- C2: witness instantiating the amended aggregation rule on the two
documented receipts with totals 100 and 50, yielding the summed entry 150. -/
theorem c2_ledger_witness :
    (spendingOf [⟨[], "a".data, [⟨[], "b".data, 100, 1⟩]⟩,
                 ⟨[], "a".data, [⟨[], "b".data, 50, 1⟩]⟩]).map
      (fun L => entry L "a".data "b".data) = some (some 150) := by
  obtain ⟨L, hL, hdom, hocc, hnone, hrange⟩ :=
    c2_ledger_amended [⟨[], "a".data, [⟨[], "b".data, 100, 1⟩]⟩,
                       ⟨[], "a".data, [⟨[], "b".data, 50, 1⟩]⟩]
  rw [hL]
  simp only [Option.map_some']
  rw [hocc "a".data "b".data (by decide)]
  decide

/-- C9: amended. Aggregation performs no validation and never fails, for
every collection of well-formed receipts; but the settlement half of the
pipeline indexes the ledger at the hardcoded keys oskars (with inner keys r
and a) and raitis (with inner keys o and a), and the Rust indexing panics
when any of them is absent: settlement completes exactly when all six
lookups succeed. -/
theorem c9_pipeline_amended :
    (∀ receipts : List Receipt, (spendingOf receipts).isSome) ∧
    (∀ L : Ledger, (settlement L).isSome ↔
      ((∃ om, L "oskars".data = some om ∧ (om "r".data).isSome ∧ (om "a".data).isSome) ∧
       (∃ rm, L "raitis".data = some rm ∧ (rm "o".data).isSome ∧ (rm "a".data).isSome))) := by
  constructor
  · intro receipts
    obtain ⟨L, hL, _⟩ := spendingOf_spec receipts
    rw [hL]
    rfl
  · intro L
    unfold settlement
    cases hosk : L "oskars".data with
    | none => simp [hosk]
    | some om =>
      cases hr : om "r".data with
      | none => simp [hosk, hr]
      | some r =>
        cases ha : om "a".data with
        | none => simp [hosk, hr, ha]
        | some a =>
          cases hrai : L "raitis".data with
          | none => simp [hosk, hr, ha, hrai]
          | some rm =>
            cases ho : rm "o".data with
            | none => simp [hosk, hr, ha, hrai, ho]
            | some o =>
              cases ha2 : rm "a".data with
              | none => simp [hosk, hr, ha, hrai, ho, ha2]
              | some a2 =>
                simp only [hosk, hr, ha, hrai, ho, ha2]
                constructor
                · intro _
                  exact ⟨⟨om, rfl, by simp [hr], by simp [ha]⟩,
                         ⟨rm, rfl, by simp [ho], by simp [ha2]⟩⟩
                · intro _
                  split <;> rfl

/-- C9: counterexample to the claim as stated. The single well-formed
receipt by purchaser bob with no items aggregates fine, but the settlement
lookups for the hardcoded parties fail (a panic in the Rust code), so the
aggregation-and-settlement computation does not complete for every
well-formed collection. -/
theorem c9_pipeline_cex :
    summary_settlement [⟨[], "bob".data, []⟩] = none ∧
    (spendingOf [⟨[], "bob".data, []⟩]).isSome = true := ⟨rfl, rfl⟩

/-- C9: witness instantiating the amended completion rule: aggregation of
the empty collection succeeds, and settlement succeeds on a ledger holding
all six required entries. -/
theorem c9_pipeline_witness :
    (spendingOf []).isSome = true ∧
    (settlement (mapInsert "oskars".data
        (mapInsert "r".data 200 (mapInsert "a".data 300 emptyStrMap))
        (mapInsert "raitis".data
          (mapInsert "o".data 100 (mapInsert "a".data 100 emptyStrMap)) emptyStrMap))).isSome
      = true := by
  constructor
  · exact c9_pipeline_amended.1 []
  · exact (c9_pipeline_amended.2 _).mpr
      ⟨⟨_, rfl, rfl, rfl⟩, ⟨_, rfl, rfl, rfl⟩⟩

/-- C3: amended. Given ledger entries oskars to r and a, and raitis to o
and a, the raitis debt is the u32 value (r + a / 2) mod 2^32 and the oskars
debt the u32 value (o + a / 2) mod 2^32 (integer division halves the shared
spending, and the u32 sum wraps rather than equalling the exact sum for
extreme entries); the larger debt minus the smaller is owed in the
direction of the larger debt, and the documented instance nets to raitis
owing oskars 200. -/
theorem c3_settlement_amended :
    ∀ (L : Ledger) (om rm : StrMap Nat) (r a o a2 : Nat),
      L "oskars".data = some om → om "r".data = some r → om "a".data = some a →
      L "raitis".data = some rm → rm "o".data = some o → rm "a".data = some a2 →
      settlement L = some
        (if (o + a2 / 2) % 2^32 < (r + a / 2) % 2^32 then
          ⟨(r + a / 2) % 2^32, (o + a2 / 2) % 2^32, true,
            (r + a / 2) % 2^32 - (o + a2 / 2) % 2^32⟩
        else
          ⟨(r + a / 2) % 2^32, (o + a2 / 2) % 2^32, false,
            (o + a2 / 2) % 2^32 - (r + a / 2) % 2^32⟩) := by
  intro L om rm r a o a2 h1 h2 h3 h4 h5 h6
  simp only [settlement, h1, h2, h3, h4, h5, h6]
  split <;> rfl

/-- C3: counterexample to the claim as stated. With ledger entries oskars
to r 4294967295 and a 2, and raitis entries 0, the claimed raitis debt is
4294967295 + 1 = 4294967296, but the u32 computation wraps to 0, so the
computed settlement is not the stated sum and nets to zero owed the other
way. -/
theorem c3_settlement_cex :
    settlement (mapInsert "oskars".data
        (mapInsert "r".data 4294967295 (mapInsert "a".data 2 emptyStrMap))
        (mapInsert "raitis".data
          (mapInsert "o".data 0 (mapInsert "a".data 0 emptyStrMap)) emptyStrMap)) =
      some ⟨0, 0, false, 0⟩ ∧
    4294967295 + 2 / 2 = 4294967296 := ⟨rfl, rfl⟩

/-- C3: witness instantiating the amended settlement rule at the documented
ledger: debts 350 and 150, raitis owes oskars 200. -/
theorem c3_settlement_witness :
    settlement (mapInsert "oskars".data
        (mapInsert "r".data 200 (mapInsert "a".data 300 emptyStrMap))
        (mapInsert "raitis".data
          (mapInsert "o".data 100 (mapInsert "a".data 100 emptyStrMap)) emptyStrMap)) =
      some ⟨350, 150, true, 200⟩ := by
  have h := c3_settlement_amended
    (mapInsert "oskars".data
      (mapInsert "r".data 200 (mapInsert "a".data 300 emptyStrMap))
      (mapInsert "raitis".data
        (mapInsert "o".data 100 (mapInsert "a".data 100 emptyStrMap)) emptyStrMap))
    (mapInsert "r".data 200 (mapInsert "a".data 300 emptyStrMap))
    (mapInsert "o".data 100 (mapInsert "a".data 100 emptyStrMap))
    200 300 100 100 rfl rfl rfl rfl rfl rfl
  rw [h]
  decide
